import Mathlib

/-!
Shallow embedding of the Shoku system-monitor update loop.

The program is a terminal dashboard whose `Update` function folds typed
messages (CPU samples, ticks, key presses, window resizes, pass-through
UI messages) into a `model` record and returns follow-up commands.
The OS queries performed while handling a tick (memory, host info,
partition list, per-partition usage) are modelled as an environment
record carried by the tick message, since in the source they are
external calls made inside `Update`.

Byte counts are natural numbers; all derived quantities (GB values,
percentages) are rationals, standing in for the source's float64 —
every division the source performs here (by `1024*1024*1024`, which is
a power of two, and the small concrete quotients checked below) is
exact in float64, so ℚ is a faithful model for the properties proved.

The bubbles `progress.Model` widget is an external rendering
collaborator; it is modelled opaquely: its state never influences the
metric fields, and its `Update` ignores every message the loop
forwards to it (in the library, only the widget's private frame
messages change it).  The source's type-assertion on the widget's
update result always succeeds (the library's `Update` always returns a
`progress.Model`), so the cast-failure branches are not represented.
-/

namespace Shoku

/-- Commands emitted by the update loop: `tea.Quit`, the re-armed tick
timer (`tickCmd`), the re-armed CPU sampler (`startCPUUsageMonitor`),
and the progress-bar commands (`SetPercent` for the CPU, memory and
per-mountpoint bars, and `Init` for a freshly created disk bar). -/
inductive Cmd where
  | quit : Cmd
  | tick : Cmd
  | cpuMonitor : Cmd
  | setPercentCpu : ℚ → Cmd
  | setPercentMem : ℚ → Cmd
  | setPercentDisk : String → ℚ → Cmd
  | initDisk : String → Cmd
  deriving DecidableEq, Repr

/-- Results of the OS queries a single tick performs: `mem.VirtualMemory`
(used and total bytes, or failure), `getSysInfo` (the formatted host
string, or failure), `disk.Partitions` (the mountpoint list, or the
error value that the source stores in `m.err`), and `disk.Usage` per
mountpoint (used and total bytes, or failure). -/
structure TickEnv where
  mem : Option (Nat × Nat)
  sys : Option String
  parts : Except String (List String)
  usage : String → Option (Nat × Nat)

/-- The message type: `cpuUsageMsg`, `tea.KeyMsg` (identified by its
string form), `tickMsg` (carrying the query results of that tick),
`tea.WindowSizeMsg`, and any other pass-through UI message. -/
inductive Msg where
  | cpuUsage : ℚ → Msg
  | key : String → Msg
  | tick : TickEnv → Msg
  | windowSize : Int → Int → Msg
  | passthrough : Msg

/-- The external bubbles progress widget, modelled opaquely. -/
structure ProgressM where
  percent : ℚ := 0
  deriving DecidableEq, Repr

/-- `progress.New(...)` with the gradient options used by the source. -/
def progressNew : ProgressM := {}

/-- The widget's `Update`: none of the loop's messages is one of the
widget's private frame messages, so the widget state is unchanged and
no command is produced. -/
def ProgressM.update (p : ProgressM) (_ : Msg) : ProgressM × List Cmd := (p, [])

/-- `Disk`: a single disk's usage information. -/
structure Disk where
  Mountpoint : String
  Used : ℚ
  Total : ℚ
  Progress : ProgressM
  deriving DecidableEq, Repr

/-- `model`: the state of the application. -/
structure Model where
  cpuUsage : ℚ := 0
  memUsed : ℚ := 0
  memTotal : ℚ := 0
  disks : List Disk := []
  sysInfo : String := ""
  width : Int := 0
  height : Int := 0
  err : Option String := none
  cpuProgress : ProgressM := progressNew
  memProgress : ProgressM := progressNew
  deriving DecidableEq, Repr

/-- The byte-to-gigabyte conversion `float64(b) / (1024 * 1024 * 1024)`
used at every boundary. -/
def bytesToGB (b : Nat) : ℚ := (b : ℚ) / (1024 * 1024 * 1024)

/-- `getMemUsage`: used and total memory in GB, plus an error flag;
on failure it returns `(0, 0, err)`. -/
def getMemUsage (memRes : Option (Nat × Nat)) : ℚ × ℚ × Bool :=
  match memRes with
  | none => (0, 0, true)
  | some (u, t) => (bytesToGB u, bytesToGB t, false)

/-- The inner scan of the tick handler: find the first entry whose
`Mountpoint` equals `p`, overwrite its `Used`/`Total` in place and stop
(`break` in the source); `none` when no entry matches (`found = false`). -/
def reconcileOne (usedGB totalGB : ℚ) (p : String) : List Disk → Option (List Disk)
  | [] => none
  | d :: ds =>
    if d.Mountpoint = p then
      some ({ d with Used := usedGB, Total := totalGB } :: ds)
    else
      match reconcileOne usedGB totalGB p ds with
      | some ds₁ => some (d :: ds₁)
      | none => none

/-- One iteration of the per-partition loop of the tick handler: a
failed usage query skips the partition (`continue`); otherwise the
existing entry is updated in place (emitting a `SetPercent` command) or
a new entry is appended (emitting `Init` and `SetPercent` commands). -/
def tickDiskStep (usage : String → Option (Nat × Nat))
    (acc : List Disk × List Cmd) (p : String) : List Disk × List Cmd :=
  match usage p with
  | none => acc
  | some (u, t) =>
    let usedGB := bytesToGB u
    let totalGB := bytesToGB t
    match reconcileOne usedGB totalGB p acc.1 with
    | some ds₁ => (ds₁, acc.2 ++ [Cmd.setPercentDisk p (usedGB / totalGB)])
    | none =>
      (acc.1 ++ [{ Mountpoint := p, Used := usedGB, Total := totalGB,
                   Progress := progressNew }],
       acc.2 ++ [Cmd.initDisk p, Cmd.setPercentDisk p (usedGB / totalGB)])

/-- The section after the `switch` in `Update`: forward the message to
the CPU, memory and per-disk progress widgets and collect their
commands after the already-accumulated ones. -/
def progressTail (m : Model) (msg : Msg) (cmds : List Cmd) : Model × List Cmd :=
  let c := m.cpuProgress.update msg
  let m₁ := { m with cpuProgress := c.1 }
  let d := m₁.memProgress.update msg
  let m₂ := { m₁ with memProgress := d.1 }
  let dres := m₂.disks.map (fun dk =>
    let r := dk.Progress.update msg
    ({ dk with Progress := r.1 }, r.2))
  ({ m₂ with disks := dres.map Prod.fst },
   cmds ++ c.2 ++ d.2 ++ (dres.map Prod.snd).flatten)

/-- `Update`: handles incoming messages and updates the model. -/
def Model.update (m : Model) (msg : Msg) : Model × List Cmd :=
  match msg with
  | Msg.cpuUsage p =>
    let m₁ := { m with cpuUsage := p }
    progressTail m₁ msg [Cmd.setPercentCpu (m₁.cpuUsage / 100), Cmd.cpuMonitor]
  | Msg.key k =>
    if k = "ctrl+c" ∨ k = "q" then (m, [Cmd.quit]) else progressTail m msg []
  | Msg.tick env =>
    let mres := getMemUsage env.mem
    let m₁ := { m with memUsed := mres.1, memTotal := mres.2.1 }
    if mres.2.2 then (m₁, [Cmd.quit])
    else
      match env.sys with
      | none => ({ m₁ with sysInfo := "" }, [Cmd.quit])
      | some s =>
        let m₂ := { m₁ with sysInfo := s }
        match env.parts with
        | Except.error e => ({ m₂ with err := some e }, [Cmd.quit])
        | Except.ok ps =>
          let res := ps.foldl (tickDiskStep env.usage) (m₂.disks, [])
          let m₃ := { m₂ with disks := res.1 }
          progressTail m₃ msg
            (res.2 ++ [Cmd.setPercentMem (m₃.memUsed / m₃.memTotal), Cmd.tick])
  | Msg.windowSize w h => progressTail { m with width := w, height := h } msg []
  | Msg.passthrough => progressTail m msg []

/-- The construction-time loop of `initialModel`: append an entry for
each enumerated partition whose usage query succeeds. -/
def initDisks (usage : String → Option (Nat × Nat)) (acc : List Disk) :
    List String → List Disk
  | [] => acc
  | p :: ps =>
    match usage p with
    | some (u, t) =>
      initDisks usage
        (acc ++ [{ Mountpoint := p, Used := bytesToGB u, Total := bytesToGB t,
                   Progress := progressNew }]) ps
    | none => initDisks usage acc ps

/-- `initialModel`: the application state before any message, built from
the construction-time partition enumeration and usage queries. -/
def initialModel (parts : Except String (List String))
    (usage : String → Option (Nat × Nat)) : Model :=
  { cpuProgress := progressNew
    memProgress := progressNew
    disks :=
      match parts with
      | Except.error _ => []
      | Except.ok ps => initDisks usage [] ps }

/-- `startCPUUsageMonitor`: the message the CPU sampler delivers, given
the result of `cpu.Percent` (`none` on error): the first measured
percentage when the call succeeds with a non-empty list, `0` otherwise. -/
def startCPUUsageMonitor (res : Option (List ℚ)) : Msg :=
  match res with
  | some (p :: _) => Msg.cpuUsage p
  | _ => Msg.cpuUsage 0

/-- The metric fields of a disk entry (mountpoint, used GB, total GB). -/
def diskMetrics (d : Disk) : String × ℚ × ℚ := (d.Mountpoint, d.Used, d.Total)

/-- The disks sequence of a model, viewed through its metric fields. -/
def diskView (m : Model) : List (String × ℚ × ℚ) := m.disks.map diskMetrics

/-- The first entry with the given mountpoint, viewed through its
`Used`/`Total` fields. -/
def firstUT (p : String) : List Disk → Option (ℚ × ℚ)
  | [] => none
  | d :: ds => if d.Mountpoint = p then some (d.Used, d.Total) else firstUT p ds

/-- The denominators of the divisions the tick handler performs:
`usedGB / totalGB` for each partition whose usage query succeeded
(both in the update-in-place and in the append branch), and
`m.memUsed / m.memTotal` for the memory progress command.  Empty when
the handler quits before reaching the reconciliation (memory, host or
partition-list failure).  None of these divisions is guarded by a
zero-denominator check in the source. -/
def tickDivisors (env : TickEnv) : List ℚ :=
  let mres := getMemUsage env.mem
  if mres.2.2 then []
  else
    match env.sys with
    | none => []
    | some _ =>
      match env.parts with
      | Except.error _ => []
      | Except.ok ps =>
        (ps.filterMap (fun p => (env.usage p).map (fun ut => bytesToGB ut.2)))
          ++ [mres.2.1]

/-! ### Structural lemmas -/

/-- The post-switch progress-forwarding section changes neither the
model nor the accumulated commands, since no loop message is a frame
message of the opaque widget. -/
lemma progressTail_eq (m : Model) (msg : Msg) (cmds : List Cmd) :
    progressTail m msg cmds = (m, cmds) := by
  simp [progressTail, ProgressM.update]
  exact congrArg (fun ds => { m with disks := ds }) (List.map_id m.disks)

lemma reconcileOne_length (u t : ℚ) (p : String) :
    ∀ (ds ds₁ : List Disk), reconcileOne u t p ds = some ds₁ → ds₁.length = ds.length := by
  intro ds
  induction ds with
  | nil => intro ds₁ h; simp [reconcileOne] at h
  | cons d ds ih =>
    intro ds₁ h
    by_cases hd : d.Mountpoint = p
    · rw [reconcileOne, if_pos hd] at h
      cases h
      simp
    · rw [reconcileOne, if_neg hd] at h
      cases hrec : reconcileOne u t p ds with
      | none => rw [hrec] at h; cases h
      | some ds₂ =>
        rw [hrec] at h
        cases h
        simp [ih ds₂ hrec]

lemma reconcileOne_get (u t : ℚ) (p : String) :
    ∀ (ds ds₁ : List Disk), reconcileOne u t p ds = some ds₁ →
      ∀ i (h : i < ds.length) (h₁ : i < ds₁.length),
        ds₁[i].Mountpoint = ds[i].Mountpoint ∧
        (ds[i].Mountpoint ≠ p → ds₁[i] = ds[i]) := by
  intro ds
  induction ds with
  | nil => intro ds₁ h; simp [reconcileOne] at h
  | cons d ds ih =>
    intro ds₁ h i hi hi₁
    by_cases hd : d.Mountpoint = p
    · rw [reconcileOne, if_pos hd] at h
      cases h
      cases i with
      | zero => simp [hd]
      | succ j => simp
    · rw [reconcileOne, if_neg hd] at h
      cases hrec : reconcileOne u t p ds with
      | none => rw [hrec] at h; cases h
      | some ds₂ =>
        rw [hrec] at h
        cases h
        cases i with
        | zero => simp
        | succ j =>
          simp only [List.getElem_cons_succ]
          exact ih ds₂ hrec j (by simpa using hi) (by simpa using hi₁)

lemma reconcileOne_eq_none (u t : ℚ) (p : String) :
    ∀ ds : List Disk, reconcileOne u t p ds = none ↔ firstUT p ds = none := by
  intro ds
  induction ds with
  | nil => simp [reconcileOne, firstUT]
  | cons d ds ih =>
    by_cases hd : d.Mountpoint = p
    · simp [reconcileOne, firstUT, hd]
    · rw [reconcileOne, if_neg hd, firstUT, if_neg hd, ← ih]
      cases hrec : reconcileOne u t p ds <;> simp

lemma firstUT_reconcileOne_self (u t : ℚ) (p : String) :
    ∀ (ds ds₁ : List Disk), reconcileOne u t p ds = some ds₁ →
      firstUT p ds₁ = some (u, t) := by
  intro ds
  induction ds with
  | nil => intro ds₁ h; simp [reconcileOne] at h
  | cons d ds ih =>
    intro ds₁ h
    by_cases hd : d.Mountpoint = p
    · rw [reconcileOne, if_pos hd] at h
      cases h
      rw [firstUT, if_pos hd]
    · rw [reconcileOne, if_neg hd] at h
      cases hrec : reconcileOne u t p ds with
      | none => rw [hrec] at h; cases h
      | some ds₂ =>
        rw [hrec] at h
        cases h
        rw [firstUT, if_neg hd]
        exact ih ds₂ hrec

lemma firstUT_reconcileOne_other (u t : ℚ) (p q : String) (hpq : p ≠ q) :
    ∀ (ds ds₁ : List Disk), reconcileOne u t q ds = some ds₁ →
      firstUT p ds₁ = firstUT p ds := by
  intro ds
  induction ds with
  | nil => intro ds₁ h; simp [reconcileOne] at h
  | cons d ds ih =>
    intro ds₁ h
    by_cases hd : d.Mountpoint = q
    · rw [reconcileOne, if_pos hd] at h
      cases h
      have hdp : d.Mountpoint ≠ p := by rw [hd]; exact fun he => hpq he.symm
      rw [firstUT, if_neg hdp, firstUT, if_neg hdp]
    · rw [reconcileOne, if_neg hd] at h
      cases hrec : reconcileOne u t q ds with
      | none => rw [hrec] at h; cases h
      | some ds₂ =>
        rw [hrec] at h
        cases h
        by_cases hdp : d.Mountpoint = p
        · rw [firstUT, if_pos hdp, firstUT, if_pos hdp]
        · rw [firstUT, if_neg hdp, firstUT, if_neg hdp]
          exact ih ds₂ hrec

lemma reconcileOne_self_eq (u t : ℚ) (p : String) :
    ∀ ds : List Disk, firstUT p ds = some (u, t) → reconcileOne u t p ds = some ds := by
  intro ds
  induction ds with
  | nil => intro h; simp [firstUT] at h
  | cons d ds ih =>
    intro h
    by_cases hd : d.Mountpoint = p
    · rw [firstUT, if_pos hd] at h
      have hu : u = d.Used := by cases h; rfl
      have ht : t = d.Total := by cases h; rfl
      rw [reconcileOne, if_pos hd, hu, ht]
    · rw [firstUT, if_neg hd] at h
      rw [reconcileOne, if_neg hd, ih h]

lemma firstUT_append_none (p : String) (ds es : List Disk) (h : firstUT p ds = none) :
    firstUT p (ds ++ es) = firstUT p es := by
  induction ds with
  | nil => simp
  | cons d ds ih =>
    by_cases hd : d.Mountpoint = p
    · rw [firstUT, if_pos hd] at h; cases h
    · rw [firstUT, if_neg hd] at h
      rw [List.cons_append, firstUT, if_neg hd]
      exact ih h

lemma firstUT_append_some (p : String) (ds es : List Disk) (x : ℚ × ℚ)
    (h : firstUT p ds = some x) : firstUT p (ds ++ es) = some x := by
  induction ds with
  | nil => simp [firstUT] at h
  | cons d ds ih =>
    by_cases hd : d.Mountpoint = p
    · rw [firstUT, if_pos hd] at h
      rw [List.cons_append, firstUT, if_pos hd]
      exact h
    · rw [firstUT, if_neg hd] at h
      rw [List.cons_append, firstUT, if_neg hd]
      exact ih h

/-! ### Invariants of the per-partition fold -/

lemma tickDiskStep_preserve (usage : String → Option (Nat × Nat)) (p : String)
    (ds : List Disk) (cmds : List Cmd) :
    ds.length ≤ (tickDiskStep usage (ds, cmds) p).1.length ∧
    ∀ i (h : i < ds.length) (h₁ : i < (tickDiskStep usage (ds, cmds) p).1.length),
      (tickDiskStep usage (ds, cmds) p).1[i].Mountpoint = ds[i].Mountpoint ∧
      (usage p = none ∨ ds[i].Mountpoint ≠ p →
        (tickDiskStep usage (ds, cmds) p).1[i] = ds[i]) := by
  cases hu : usage p with
  | none => simp [tickDiskStep, hu]
  | some ut =>
    obtain ⟨u, t⟩ := ut
    cases hrec : reconcileOne (bytesToGB u) (bytesToGB t) p ds with
    | some ds₂ =>
      have hstep : (tickDiskStep usage (ds, cmds) p).1 = ds₂ := by
        simp [tickDiskStep, hu, hrec]
      rw [hstep]
      constructor
      · exact le_of_eq (reconcileOne_length _ _ _ ds ds₂ hrec).symm
      · intro i h h₁
        obtain ⟨hmp, hne⟩ := reconcileOne_get _ _ _ ds ds₂ hrec i h h₁
        refine ⟨hmp, fun hcase => ?_⟩
        rcases hcase with hnone | hne₂
        · exact Option.noConfusion hnone
        · exact hne hne₂
    | none =>
      have hstep : (tickDiskStep usage (ds, cmds) p).1 =
          ds ++ [{ Mountpoint := p, Used := bytesToGB u, Total := bytesToGB t,
                   Progress := progressNew }] := by
        simp [tickDiskStep, hu, hrec]
      rw [hstep]
      constructor
      · simp
      · intro i h h₁
        rw [List.getElem_append_left h]
        exact ⟨rfl, fun _ => rfl⟩

lemma tickFold_preserve (usage : String → Option (Nat × Nat)) :
    ∀ (ps : List String) (ds : List Disk) (cmds : List Cmd),
      ds.length ≤ (ps.foldl (tickDiskStep usage) (ds, cmds)).1.length ∧
      ∀ i (h : i < ds.length) (h₁ : i < (ps.foldl (tickDiskStep usage) (ds, cmds)).1.length),
        (ps.foldl (tickDiskStep usage) (ds, cmds)).1[i].Mountpoint = ds[i].Mountpoint ∧
        (ds[i].Mountpoint ∉ ps.filter (fun q => (usage q).isSome) →
          (ps.foldl (tickDiskStep usage) (ds, cmds)).1[i] = ds[i]) := by
  intro ps
  induction ps with
  | nil => intro ds cmds; simp
  | cons p ps ih =>
    intro ds cmds
    rw [List.foldl_cons]
    obtain ⟨hslen, hstep⟩ := tickDiskStep_preserve usage p ds cmds
    obtain ⟨hflen, hfold⟩ := ih (tickDiskStep usage (ds, cmds) p).1
      (tickDiskStep usage (ds, cmds) p).2
    constructor
    · exact le_trans hslen hflen
    · intro i h h₁
      have h₂ : i < (tickDiskStep usage (ds, cmds) p).1.length := lt_of_lt_of_le h hslen
      obtain ⟨hsmp, hsne⟩ := hstep i h h₂
      obtain ⟨hfmp, hfne⟩ := hfold i h₂ h₁
      refine ⟨hfmp.trans hsmp, fun hnotin => ?_⟩
      have hcase : usage p = none ∨ ds[i].Mountpoint ≠ p := by
        cases hu : usage p with
        | none => exact Or.inl rfl
        | some ut =>
          refine Or.inr fun heq => hnotin ?_
          rw [heq]
          simp [List.mem_filter, hu]
      have hstepeq := hsne hcase
      have : (tickDiskStep usage (ds, cmds) p).1[i].Mountpoint ∉
          ps.filter (fun q => (usage q).isSome) := by
        rw [hstepeq]
        intro hmem
        apply hnotin
        rw [List.mem_filter] at hmem ⊢
        exact ⟨List.mem_cons_of_mem p hmem.1, hmem.2⟩
      rw [hfne this, hstepeq]

lemma tickFold_firstUT_not_mem (usage : String → Option (Nat × Nat)) (p : String) :
    ∀ (ps : List String), p ∉ ps → ∀ (ds : List Disk) (cmds : List Cmd),
      firstUT p (ps.foldl (tickDiskStep usage) (ds, cmds)).1 = firstUT p ds := by
  intro ps
  induction ps with
  | nil => intro _ ds cmds; simp
  | cons q ps ih =>
    intro hnm ds cmds
    have hpq : p ≠ q := fun h => hnm (h ▸ List.mem_cons_self q ps)
    have hps : p ∉ ps := fun h => hnm (List.mem_cons_of_mem q h)
    rw [List.foldl_cons]
    cases hu : usage q with
    | none =>
      rw [ih hps]
      simp [tickDiskStep, hu]
    | some ut =>
      obtain ⟨u, t⟩ := ut
      cases hrec : reconcileOne (bytesToGB u) (bytesToGB t) q ds with
      | some ds₂ =>
        have hstep : tickDiskStep usage (ds, cmds) q =
            (ds₂, cmds ++ [Cmd.setPercentDisk q (bytesToGB u / bytesToGB t)]) := by
          simp [tickDiskStep, hu, hrec]
        rw [hstep, ih hps]
        exact firstUT_reconcileOne_other _ _ p q hpq ds ds₂ hrec
      | none =>
        have hstep : tickDiskStep usage (ds, cmds) q =
            (ds ++ [{ Mountpoint := q, Used := bytesToGB u, Total := bytesToGB t,
                      Progress := progressNew }],
             cmds ++ [Cmd.initDisk q,
                      Cmd.setPercentDisk q (bytesToGB u / bytesToGB t)]) := by
          simp [tickDiskStep, hu, hrec]
        rw [hstep, ih hps]
        cases hft : firstUT p ds with
        | some x => exact firstUT_append_some p ds _ x hft
        | none =>
          rw [firstUT_append_none p ds _ hft]
          simp [firstUT, hft, Ne.symm hpq]


lemma tickFold_firstUT_mem (usage : String → Option (Nat × Nat)) :
    ∀ (ps : List String) (p : String) (u t : Nat), p ∈ ps → usage p = some (u, t) →
      ∀ (ds : List Disk) (cmds : List Cmd),
        firstUT p (ps.foldl (tickDiskStep usage) (ds, cmds)).1 =
          some (bytesToGB u, bytesToGB t) := by
  intro ps
  induction ps with
  | nil => intro p u t hmem; cases hmem
  | cons q ps ih =>
    intro p u t hmem hu ds cmds
    rw [List.foldl_cons]
    by_cases hp : p ∈ ps
    · cases hstep : tickDiskStep usage (ds, cmds) q with
      | mk ds₁ cmds₁ => exact ih p u t hp hu ds₁ cmds₁
    · have hpq : p = q := by
        rcases List.mem_cons.mp hmem with h | h
        · exact h
        · exact absurd h hp
      subst hpq
      cases hrec : reconcileOne (bytesToGB u) (bytesToGB t) p ds with
      | some ds₂ =>
        have hstep : tickDiskStep usage (ds, cmds) p =
            (ds₂, cmds ++ [Cmd.setPercentDisk p (bytesToGB u / bytesToGB t)]) := by
          simp [tickDiskStep, hu, hrec]
        rw [hstep, tickFold_firstUT_not_mem usage p ps hp]
        exact firstUT_reconcileOne_self _ _ p ds ds₂ hrec
      | none =>
        have hstep : tickDiskStep usage (ds, cmds) p =
            (ds ++ [{ Mountpoint := p, Used := bytesToGB u, Total := bytesToGB t,
                      Progress := progressNew }],
             cmds ++ [Cmd.initDisk p,
                      Cmd.setPercentDisk p (bytesToGB u / bytesToGB t)]) := by
          simp [tickDiskStep, hu, hrec]
        have hnone : firstUT p ds = none := (reconcileOne_eq_none _ _ p ds).mp hrec
        rw [hstep, tickFold_firstUT_not_mem usage p ps hp,
          firstUT_append_none p ds _ hnone]
        simp [firstUT]

lemma tickFold_id (usage : String → Option (Nat × Nat)) :
    ∀ (ps : List String) (ds : List Disk) (cmds : List Cmd),
      (∀ p ∈ ps, ∀ u t, usage p = some (u, t) →
        firstUT p ds = some (bytesToGB u, bytesToGB t)) →
      (ps.foldl (tickDiskStep usage) (ds, cmds)).1 = ds := by
  intro ps
  induction ps with
  | nil => intro ds cmds _; rfl
  | cons q ps ih =>
    intro ds cmds hinv
    rw [List.foldl_cons]
    cases hu : usage q with
    | none =>
      have hstep : tickDiskStep usage (ds, cmds) q = (ds, cmds) := by
        simp [tickDiskStep, hu]
      rw [hstep]
      exact ih ds cmds (fun p hp u t hut => hinv p (List.mem_cons_of_mem q hp) u t hut)
    | some ut =>
      obtain ⟨u, t⟩ := ut
      have hfirst : firstUT q ds = some (bytesToGB u, bytesToGB t) :=
        hinv q (List.mem_cons_self q ps) u t hu
      have hrec : reconcileOne (bytesToGB u) (bytesToGB t) q ds = some ds :=
        reconcileOne_self_eq _ _ q ds hfirst
      have hstep : tickDiskStep usage (ds, cmds) q =
          (ds, cmds ++ [Cmd.setPercentDisk q (bytesToGB u / bytesToGB t)]) := by
        simp [tickDiskStep, hu, hrec]
      rw [hstep]
      exact ih ds _ (fun p hp u' t' hut => hinv p (List.mem_cons_of_mem q hp) u' t' hut)


/-! ### Branch characterizations of the tick handler -/

lemma bytesToGB_eq (b : Nat) : bytesToGB b = (b : ℚ) / 2 ^ 30 := by
  rw [bytesToGB]
  norm_num

lemma bytesToGB_pos (t : Nat) (ht : 0 < t) : 0 < bytesToGB t := by
  rw [bytesToGB]
  exact div_pos (by exact_mod_cast ht) (by norm_num)

lemma update_tick_memFail (m : Model) (env : TickEnv) (h : env.mem = none) :
    m.update (Msg.tick env) = ({ m with memUsed := 0, memTotal := 0 }, [Cmd.quit]) := by
  simp [Model.update, h, getMemUsage]

lemma update_tick_sysFail (m : Model) (env : TickEnv) (u t : Nat)
    (hm : env.mem = some (u, t)) (hs : env.sys = none) :
    m.update (Msg.tick env) =
      ({ m with memUsed := bytesToGB u, memTotal := bytesToGB t, sysInfo := "" },
       [Cmd.quit]) := by
  simp [Model.update, hm, hs, getMemUsage]

lemma update_tick_partsFail (m : Model) (env : TickEnv) (u t : Nat) (s e : String)
    (hm : env.mem = some (u, t)) (hs : env.sys = some s)
    (hp : env.parts = Except.error e) :
    m.update (Msg.tick env) =
      ({ m with memUsed := bytesToGB u, memTotal := bytesToGB t, sysInfo := s,
                err := some e },
       [Cmd.quit]) := by
  simp [Model.update, hm, hs, hp, getMemUsage]

lemma update_tick_ok (m : Model) (env : TickEnv) (u t : Nat) (s : String)
    (ps : List String)
    (hm : env.mem = some (u, t)) (hs : env.sys = some s)
    (hp : env.parts = Except.ok ps) :
    m.update (Msg.tick env) =
      ({ m with memUsed := bytesToGB u, memTotal := bytesToGB t, sysInfo := s,
                disks := (ps.foldl (tickDiskStep env.usage) (m.disks, [])).1 },
       (ps.foldl (tickDiskStep env.usage) (m.disks, [])).2 ++
         [Cmd.setPercentMem (bytesToGB u / bytesToGB t), Cmd.tick]) := by
  simp [Model.update, hm, hs, hp, getMemUsage, progressTail_eq]

lemma tickDiskStep_no_quit (usage : String → Option (Nat × Nat)) (p : String)
    (acc : List Disk × List Cmd) (h : Cmd.quit ∉ acc.2) :
    Cmd.quit ∉ (tickDiskStep usage acc p).2 := by
  cases hu : usage p with
  | none => simpa [tickDiskStep, hu] using h
  | some ut =>
    obtain ⟨u, t⟩ := ut
    cases hrec : reconcileOne (bytesToGB u) (bytesToGB t) p acc.1 with
    | some ds₂ => simp [tickDiskStep, hu, hrec, h]
    | none => simp [tickDiskStep, hu, hrec, h]

lemma tickFold_no_quit (usage : String → Option (Nat × Nat)) :
    ∀ (ps : List String) (acc : List Disk × List Cmd), Cmd.quit ∉ acc.2 →
      Cmd.quit ∉ (ps.foldl (tickDiskStep usage) acc).2 := by
  intro ps
  induction ps with
  | nil => intro acc h; exact h
  | cons p ps ih =>
    intro acc h
    rw [List.foldl_cons]
    exact ih _ (tickDiskStep_no_quit usage p acc h)

lemma initDisks_all_none (usage : String → Option (Nat × Nat)) :
    ∀ (ps : List String) (acc : List Disk), (∀ p ∈ ps, usage p = none) →
      initDisks usage acc ps = acc := by
  intro ps
  induction ps with
  | nil => intro acc _; rfl
  | cons p ps ih =>
    intro acc h
    rw [initDisks, h p (List.mem_cons_self p ps)]
    exact ih acc (fun q hq => h q (List.mem_cons_of_mem p hq))

/-! ### Concrete fixtures used by witnesses and counterexamples -/

/-- A tick whose memory query fails while host, partition and usage
queries would all succeed. -/
def wEnvMemFail : TickEnv :=
  { mem := none, sys := some "host", parts := Except.ok ["/"],
    usage := fun _ => some (1, 2) }

/-! ### Claim theorems -/

/-- C4 counterexample: on a tick whose memory query fails, `Update`
quits but does NOT set the error field — `err` is still `none` in the
returned state, contrary to the claim that `lastError` is set. -/
theorem update_tick_memFail_err_not_set :
    (({} : Model).update (Msg.tick wEnvMemFail)).1.err = none ∧
    Cmd.quit ∈ (({} : Model).update (Msg.tick wEnvMemFail)).2 := by
  rw [update_tick_memFail ({} : Model) wEnvMemFail rfl]
  exact ⟨rfl, List.mem_singleton.mpr rfl⟩

/-- C4 (amended): if the memory query fails, `Update` signals loop
termination immediately — without setting the error field — before the
partition list is queried or any disk entry is touched: the result is
exactly `({ m with memUsed := 0, memTotal := 0 }, [quit])`, independent
of the partition and usage queries, so the disks sequence, `cpuUsage`
and `err` are as they were before the tick. -/
theorem update_tick_memFail_failfast (m : Model) (env : TickEnv)
    (h : env.mem = none) :
    (m.update (Msg.tick env)).2 = [Cmd.quit] ∧
    (m.update (Msg.tick env)).1.disks = m.disks ∧
    (m.update (Msg.tick env)).1.cpuUsage = m.cpuUsage ∧
    (m.update (Msg.tick env)).1.err = m.err ∧
    m.update (Msg.tick env) = ({ m with memUsed := 0, memTotal := 0 }, [Cmd.quit]) := by
  rw [update_tick_memFail m env h]
  exact ⟨rfl, rfl, rfl, rfl, rfl⟩

/-- C4 witness: the amended theorem applied at a concrete state and
tick environment. -/
theorem update_tick_memFail_failfast_witness :
    wEnvMemFail.mem = none ∧
    (({} : Model).update (Msg.tick wEnvMemFail)).2 = [Cmd.quit] :=
  ⟨rfl, (update_tick_memFail_failfast {} wEnvMemFail rfl).1⟩

/-- C6: a failed CPU sampling query produces `cpuUsageMsg 0`;
processing that message sets `cpuUsage` to `0`, does not quit, re-arms
the sampler, and leaves `memUsed`, `memTotal` and the disks sequence
unchanged. -/
theorem cpu_sample_failure_reports_zero (m : Model) :
    startCPUUsageMonitor none = Msg.cpuUsage 0 ∧
    (m.update (Msg.cpuUsage 0)).1.cpuUsage = 0 ∧
    Cmd.quit ∉ (m.update (Msg.cpuUsage 0)).2 ∧
    Cmd.cpuMonitor ∈ (m.update (Msg.cpuUsage 0)).2 ∧
    (m.update (Msg.cpuUsage 0)).1.memUsed = m.memUsed ∧
    (m.update (Msg.cpuUsage 0)).1.memTotal = m.memTotal ∧
    (m.update (Msg.cpuUsage 0)).1.disks = m.disks := by
  have h : m.update (Msg.cpuUsage 0) =
      ({ m with cpuUsage := 0 }, [Cmd.setPercentCpu 0, Cmd.cpuMonitor]) := by
    simp [Model.update, progressTail_eq]
  rw [h]
  refine ⟨rfl, rfl, by simp, by simp, rfl, rfl, rfl⟩

/-- C6 witness: the theorem applied at a concrete state. -/
theorem cpu_sample_failure_reports_zero_witness :
    (({} : Model).update (Msg.cpuUsage 0)).1.cpuUsage = 0 :=
  (cpu_sample_failure_reports_zero {}).2.1

/-- C8: the initial state has `cpuUsage = 0`, `memUsed = memTotal = 0`
and no error; its disks sequence is empty whenever the construction-time
partition enumeration yields no usable partition (enumeration failure,
or every per-partition usage query failing). -/
theorem initialModel_initial_state (parts : Except String (List String))
    (usage : String → Option (Nat × Nat)) :
    (initialModel parts usage).cpuUsage = 0 ∧
    (initialModel parts usage).memUsed = 0 ∧
    (initialModel parts usage).memTotal = 0 ∧
    (initialModel parts usage).err = none ∧
    ((∀ ps, parts = Except.ok ps → ∀ p ∈ ps, usage p = none) →
      (initialModel parts usage).disks = []) := by
  refine ⟨rfl, rfl, rfl, rfl, fun h => ?_⟩
  cases parts with
  | error e => rfl
  | ok ps =>
    show initDisks usage [] ps = []
    exact initDisks_all_none usage ps [] (h ps rfl)

/-- C8 witness: the theorem applied at a concrete enumeration whose
usage queries all fail. -/
theorem initialModel_initial_state_witness :
    (initialModel (Except.ok ["/", "/data"]) (fun _ => none)).disks = [] ∧
    (initialModel (Except.ok ["/", "/data"]) (fun _ => none)).cpuUsage = 0 :=
  ⟨(initialModel_initial_state _ _).2.2.2.2 (fun _ _ _ _ => rfl),
   (initialModel_initial_state _ _).1⟩

/-- C9: a resize changes exactly the `width`/`height` viewport fields,
and every non-tick, non-CPU-sample, non-quit-key message leaves
`cpuUsage`, `memUsed`, `memTotal` and the disks sequence unchanged. -/
theorem ui_events_preserve_metrics :
    (∀ (m : Model) (w h : Int),
      (m.update (Msg.windowSize w h)).1 = { m with width := w, height := h }) ∧
    (∀ (m : Model) (msg : Msg),
      (match msg with
       | Msg.cpuUsage _ => False
       | Msg.tick _ => False
       | Msg.key k => ¬(k = "ctrl+c" ∨ k = "q")
       | Msg.windowSize _ _ => True
       | Msg.passthrough => True) →
      (m.update msg).1.cpuUsage = m.cpuUsage ∧
      (m.update msg).1.memUsed = m.memUsed ∧
      (m.update msg).1.memTotal = m.memTotal ∧
      (m.update msg).1.disks = m.disks) := by
  constructor
  · intro m w h
    have heq : m.update (Msg.windowSize w h) =
        ({ m with width := w, height := h }, []) := by
      simp [Model.update, progressTail_eq]
    rw [heq]
  · intro m msg hmsg
    cases msg with
    | cpuUsage p => exact hmsg.elim
    | tick env => exact hmsg.elim
    | key k =>
      have heq : m.update (Msg.key k) = (m, []) := by
        simp [Model.update, progressTail_eq, hmsg]
      rw [heq]
      exact ⟨rfl, rfl, rfl, rfl⟩
    | windowSize w h =>
      have heq : m.update (Msg.windowSize w h) =
          ({ m with width := w, height := h }, []) := by
        simp [Model.update, progressTail_eq]
      rw [heq]
      exact ⟨rfl, rfl, rfl, rfl⟩
    | passthrough =>
      have heq : m.update Msg.passthrough = (m, []) := by
        simp [Model.update, progressTail_eq]
      rw [heq]
      exact ⟨rfl, rfl, rfl, rfl⟩

/-- C9 witness: the theorem applied at a concrete resize and a concrete
non-quit key press. -/
theorem ui_events_preserve_metrics_witness :
    (({} : Model).update (Msg.windowSize 80 24)).1 =
      { ({} : Model) with width := 80, height := 24 } ∧
    (({} : Model).update (Msg.key "x")).1.disks = ({} : Model).disks :=
  ⟨ui_events_preserve_metrics.1 {} 80 24,
   (ui_events_preserve_metrics.2 {} (Msg.key "x") (by decide)).2.2.2⟩

/-- The disks sequence produced by a tick, by branch: unchanged on any
fail-fast exit, the per-partition fold otherwise. -/
lemma update_tick_disks_eq (m : Model) (env : TickEnv) :
    (m.update (Msg.tick env)).1.disks =
      match env.mem, env.sys, env.parts with
      | none, _, _ => m.disks
      | some _, none, _ => m.disks
      | some _, some _, Except.error _ => m.disks
      | some _, some _, Except.ok ps =>
        (ps.foldl (tickDiskStep env.usage) (m.disks, [])).1 := by
  cases hm : env.mem with
  | none => rw [update_tick_memFail m env hm]
  | some ut =>
    obtain ⟨u, t⟩ := ut
    cases hs : env.sys with
    | none => rw [update_tick_sysFail m env u t hm hs]
    | some s =>
      cases hp : env.parts with
      | error e => rw [update_tick_partsFail m env u t s e hm hs hp]
      | ok ps => rw [update_tick_ok m env u t s ps hm hs hp]

/-- A first known disk entry. -/
def wDiskA : Disk := { Mountpoint := "/alpha", Used := 1, Total := 2, Progress := progressNew }

/-- A second known disk entry. -/
def wDiskB : Disk := { Mountpoint := "/beta", Used := 3, Total := 4, Progress := progressNew }

/-- A state that already knows the two disks `/alpha` and `/beta`. -/
def wModelAB : Model := { disks := [wDiskA, wDiskB] }

/-- A tick whose partition query returns only `/alpha`, with a
successful usage query for it. -/
def wEnvOnlyA : TickEnv :=
  { mem := some (2147483648, 4294967296), sys := some "host",
    parts := Except.ok ["/alpha"],
    usage := fun p => if p = "/alpha" then some (1073741824, 2147483648) else none }

/-- C2: a tick never removes a disk entry: the disks sequence only
grows, every pre-existing entry keeps its position and mountpoint, and
an entry whose mountpoint is absent from the partition query result is
entirely unchanged. -/
theorem update_tick_never_removes (m : Model) (env : TickEnv) :
    m.disks.length ≤ (m.update (Msg.tick env)).1.disks.length ∧
    ∀ i (h : i < m.disks.length)
      (h₁ : i < (m.update (Msg.tick env)).1.disks.length),
      (m.update (Msg.tick env)).1.disks[i].Mountpoint = m.disks[i].Mountpoint ∧
      ((∀ ps, env.parts = Except.ok ps → m.disks[i].Mountpoint ∉ ps) →
        (m.update (Msg.tick env)).1.disks[i] = m.disks[i]) := by
  cases hm : env.mem with
  | none =>
    rw [update_tick_memFail m env hm]
    exact ⟨le_refl _, fun i h h₁ => ⟨rfl, fun _ => rfl⟩⟩
  | some ut =>
    obtain ⟨u, t⟩ := ut
    cases hs : env.sys with
    | none =>
      rw [update_tick_sysFail m env u t hm hs]
      exact ⟨le_refl _, fun i h h₁ => ⟨rfl, fun _ => rfl⟩⟩
    | some s =>
      cases hp : env.parts with
      | error e =>
        rw [update_tick_partsFail m env u t s e hm hs hp]
        exact ⟨le_refl _, fun i h h₁ => ⟨rfl, fun _ => rfl⟩⟩
      | ok ps =>
        rw [update_tick_ok m env u t s ps hm hs hp]
        obtain ⟨hlen, hget⟩ := tickFold_preserve env.usage ps m.disks []
        refine ⟨hlen, fun i h h₁ => ?_⟩
        obtain ⟨hmp, hne⟩ := hget i h h₁
        refine ⟨hmp, fun habs => hne fun hmem => ?_⟩
        rw [List.mem_filter] at hmem
        exact habs ps rfl hmem.1

/-- C2 witness: the theorem applied at a concrete two-disk state and a
tick whose partition query has lost `/beta`: the stale entry is still
there, at its old position, unchanged. -/
theorem update_tick_never_removes_witness :
    ∃ (h : 1 < wModelAB.disks.length)
      (h₁ : 1 < (wModelAB.update (Msg.tick wEnvOnlyA)).1.disks.length),
      (wModelAB.update (Msg.tick wEnvOnlyA)).1.disks.get ⟨1, h₁⟩ =
        wModelAB.disks.get ⟨1, h⟩ := by
  have hfacts := update_tick_never_removes wModelAB wEnvOnlyA
  have hb : (1 : Nat) < wModelAB.disks.length := by decide
  have h₁ : (1 : Nat) < (wModelAB.update (Msg.tick wEnvOnlyA)).1.disks.length :=
    lt_of_lt_of_le hb hfacts.1
  refine ⟨hb, h₁, ?_⟩
  exact (hfacts.2 1 hb h₁).2 (fun ps hps => by
    have hps₂ : (Except.ok ["/alpha"] : Except String (List String)) = Except.ok ps := hps
    injection hps₂ with hps₃
    subst hps₃
    rw [show wModelAB.disks[1].Mountpoint = "/beta" from rfl]
    decide)

/-- C3: tick reconciliation is idempotent on the disks sequence —
applying `Update` twice with the same tick inputs yields the same disks
sequence (same order, same mountpoints, same `Used`/`Total`) as
applying it once; no duplicate entry is created for a known mountpoint. -/
theorem update_tick_idempotent (m : Model) (env : TickEnv) :
    diskView ((m.update (Msg.tick env)).1.update (Msg.tick env)).1 =
      diskView (m.update (Msg.tick env)).1 := by
  simp only [diskView]
  rw [update_tick_disks_eq ((m.update (Msg.tick env)).1) env,
    update_tick_disks_eq m env]
  cases hm : env.mem with
  | none => rfl
  | some ut =>
    cases hs : env.sys with
    | none => rfl
    | some s =>
      cases hp : env.parts with
      | error e => rfl
      | ok ps =>
        have hid : (ps.foldl (tickDiskStep env.usage)
            ((ps.foldl (tickDiskStep env.usage) (m.disks, [])).1, [])).1 =
            (ps.foldl (tickDiskStep env.usage) (m.disks, [])).1 :=
          tickFold_id env.usage ps _ []
            (fun p hpmem u₂ t₂ hu₂ =>
              tickFold_firstUT_mem env.usage ps p u₂ t₂ hpmem hu₂ m.disks [])
        exact congrArg (List.map diskMetrics) hid

/-- C3 witness: the theorem applied at a concrete state and tick
environment. -/
theorem update_tick_idempotent_witness :
    diskView ((wModelAB.update (Msg.tick wEnvOnlyA)).1.update (Msg.tick wEnvOnlyA)).1 =
      diskView (wModelAB.update (Msg.tick wEnvOnlyA)).1 :=
  update_tick_idempotent wModelAB wEnvOnlyA

/-- C7: every byte quantity entering the state is converted to GB by
dividing by `2 ^ 30`: the conversion function is exactly division by
`2 ^ 30`, a tick with a successful memory query of `(u, t)` bytes
stores `u / 2 ^ 30` and `t / 2 ^ 30` in `memUsed`/`memTotal`, a
reconciled partition's entry stores its queried bytes divided by
`2 ^ 30`, and `2147483648` / `4294967296` bytes convert to exactly
`2` / `4` GB. -/
theorem bytes_to_gb_conversion :
    (∀ b : Nat, bytesToGB b = (b : ℚ) / 2 ^ 30) ∧
    (∀ (m : Model) (env : TickEnv) (u t : Nat), env.mem = some (u, t) →
      (m.update (Msg.tick env)).1.memUsed = (u : ℚ) / 2 ^ 30 ∧
      (m.update (Msg.tick env)).1.memTotal = (t : ℚ) / 2 ^ 30) ∧
    (∀ (usage : String → Option (Nat × Nat)) (acc : List Disk × List Cmd)
        (p : String) (u t : Nat), usage p = some (u, t) →
      firstUT p (tickDiskStep usage acc p).1 =
        some ((u : ℚ) / 2 ^ 30, (t : ℚ) / 2 ^ 30)) ∧
    bytesToGB 2147483648 = 2 ∧ bytesToGB 4294967296 = 4 := by
  refine ⟨bytesToGB_eq, ?_, ?_, by rw [bytesToGB]; norm_num, by rw [bytesToGB]; norm_num⟩
  · intro m env u t hmem
    cases hs : env.sys with
    | none =>
      rw [update_tick_sysFail m env u t hmem hs]
      exact ⟨bytesToGB_eq u, bytesToGB_eq t⟩
    | some s =>
      cases hp : env.parts with
      | error e =>
        rw [update_tick_partsFail m env u t s e hmem hs hp]
        exact ⟨bytesToGB_eq u, bytesToGB_eq t⟩
      | ok ps =>
        rw [update_tick_ok m env u t s ps hmem hs hp]
        exact ⟨bytesToGB_eq u, bytesToGB_eq t⟩
  · intro usage acc p u t hu
    rw [← bytesToGB_eq, ← bytesToGB_eq]
    cases hrec : reconcileOne (bytesToGB u) (bytesToGB t) p acc.1 with
    | some ds₂ =>
      have hstep : (tickDiskStep usage acc p).1 = ds₂ := by
        simp [tickDiskStep, hu, hrec]
      rw [hstep]
      exact firstUT_reconcileOne_self _ _ p acc.1 ds₂ hrec
    | none =>
      have hstep : (tickDiskStep usage acc p).1 =
          acc.1 ++ [{ Mountpoint := p, Used := bytesToGB u, Total := bytesToGB t,
                      Progress := progressNew }] := by
        simp [tickDiskStep, hu, hrec]
      rw [hstep,
        firstUT_append_none p acc.1 _ ((reconcileOne_eq_none _ _ p acc.1).mp hrec)]
      simp [firstUT]

/-- C7 witness: the memory-conversion clause applied at a concrete tick
carrying `2147483648` used of `4294967296` total bytes. -/
theorem bytes_to_gb_conversion_witness :
    (({} : Model).update (Msg.tick wEnvOnlyA)).1.memUsed = (2147483648 : ℚ) / 2 ^ 30 ∧
    (({} : Model).update (Msg.tick wEnvOnlyA)).1.memTotal = (4294967296 : ℚ) / 2 ^ 30 :=
  bytes_to_gb_conversion.2.1 {} wEnvOnlyA 2147483648 4294967296 rfl

/-- A tick in which every queried total is positive. -/
def wEnvPos : TickEnv :=
  { mem := some (1, 2), sys := some "host", parts := Except.ok ["/"],
    usage := fun _ => some (1, 2) }

/-- A tick in which a partition reports a zero total. -/
def wEnvZeroTotal : TickEnv :=
  { mem := some (0, 1), sys := some "host", parts := Except.ok ["/"],
    usage := fun _ => some (0, 0) }

/-- C10: the divisions performed during tick reconciliation are
unguarded: whenever every successful usage query and the memory query
report a positive total, none of the denominators is zero; and with a
zero-total partition the division is performed anyway — zero appears
among the denominators, since the source has no zero-total check. -/
theorem tick_divisions_unguarded :
    (∀ env : TickEnv,
      (∀ ps, env.parts = Except.ok ps →
        ∀ p ∈ ps, ∀ u t, env.usage p = some (u, t) → 0 < t) →
      (∀ u t, env.mem = some (u, t) → 0 < t) →
      (0 : ℚ) ∉ tickDivisors env) ∧
    (0 : ℚ) ∈ tickDivisors wEnvZeroTotal := by
  constructor
  · intro env hus hmt h0
    cases hm : env.mem with
    | none =>
      have hnil : tickDivisors env = [] := by simp [tickDivisors, hm, getMemUsage]
      rw [hnil] at h0
      exact List.not_mem_nil _ h0
    | some ut =>
      obtain ⟨u, t⟩ := ut
      cases hsy : env.sys with
      | none =>
        have hnil : tickDivisors env = [] := by
          simp [tickDivisors, hm, hsy, getMemUsage]
        rw [hnil] at h0
        exact List.not_mem_nil _ h0
      | some s =>
        cases hp : env.parts with
        | error e =>
          have hnil : tickDivisors env = [] := by
            simp [tickDivisors, hm, hsy, hp, getMemUsage]
          rw [hnil] at h0
          exact List.not_mem_nil _ h0
        | ok ps =>
          have hdiv : tickDivisors env =
              (ps.filterMap (fun p => (env.usage p).map (fun ut => bytesToGB ut.2)))
                ++ [bytesToGB t] := by
            simp [tickDivisors, hm, hsy, hp, getMemUsage]
          rw [hdiv] at h0
          rcases List.mem_append.mp h0 with hin | hin
          · obtain ⟨p, hpmem, hmap⟩ := List.mem_filterMap.mp hin
            cases hup : env.usage p with
            | none => rw [hup] at hmap; cases hmap
            | some ut₂ =>
              obtain ⟨u₂, t₂⟩ := ut₂
              rw [hup] at hmap
              injection hmap with hmap₂
              exact ne_of_gt (bytesToGB_pos t₂ (hus ps hp p hpmem u₂ t₂ hup)) hmap₂
          · rw [List.mem_singleton] at hin
            exact ne_of_gt (bytesToGB_pos t (hmt u t hm)) hin.symm
  · have hd : tickDivisors wEnvZeroTotal = [bytesToGB 0, bytesToGB 1] := by
      simp [tickDivisors, wEnvZeroTotal, getMemUsage]
    have h0 : bytesToGB 0 = 0 := by rw [bytesToGB]; norm_num
    rw [hd, h0]
    exact List.mem_cons_self _ _

/-- C10 witness: the all-positive-totals clause applied at a concrete
tick environment. -/
theorem tick_divisions_unguarded_witness :
    (0 : ℚ) ∉ tickDivisors wEnvPos :=
  tick_divisions_unguarded.1 wEnvPos
    (fun ps hps p hpmem u t h => by
      injection h with h₂
      injection h₂ with hu ht
      omega)
    (fun u t h => by
      injection h with h₂
      injection h₂ with hu ht
      omega)

/-- C1: starting from `disks = [dA, dB]` (distinct mountpoints `A`,
`B`), a tick whose partition query returns `[A, B, C]` with all three
usage queries succeeding produces exactly the disks sequence
`[A, B, C]`: the entries for `A` and `B` stay at their positions with
`Used`/`Total` overwritten in place, and a fresh entry for `C` is
appended at the end. -/
theorem update_tick_append_growth (m : Model) (env : TickEnv)
    (A B C : String) (dA dB : Disk) (mu mt uA tA uB tB uC tC : Nat) (s : String)
    (hdisks : m.disks = [dA, dB]) (hA : dA.Mountpoint = A) (hB : dB.Mountpoint = B)
    (hAB : A ≠ B) (hCA : C ≠ A) (hCB : C ≠ B)
    (hm : env.mem = some (mu, mt)) (hs : env.sys = some s)
    (hp : env.parts = Except.ok [A, B, C])
    (huA : env.usage A = some (uA, tA)) (huB : env.usage B = some (uB, tB))
    (huC : env.usage C = some (uC, tC)) :
    diskView (m.update (Msg.tick env)).1 =
      [(A, bytesToGB uA, bytesToGB tA), (B, bytesToGB uB, bytesToGB tB),
       (C, bytesToGB uC, bytesToGB tC)] := by
  rw [update_tick_ok m env mu mt s [A, B, C] hm hs hp]
  have h1 : tickDiskStep env.usage ([dA, dB], []) A =
      ([{ dA with Used := bytesToGB uA, Total := bytesToGB tA }, dB],
       [Cmd.setPercentDisk A (bytesToGB uA / bytesToGB tA)]) := by
    simp [tickDiskStep, huA, reconcileOne, hA]
  have h2 : tickDiskStep env.usage
      ([{ dA with Used := bytesToGB uA, Total := bytesToGB tA }, dB],
       [Cmd.setPercentDisk A (bytesToGB uA / bytesToGB tA)]) B =
      ([{ dA with Used := bytesToGB uA, Total := bytesToGB tA },
        { dB with Used := bytesToGB uB, Total := bytesToGB tB }],
       [Cmd.setPercentDisk A (bytesToGB uA / bytesToGB tA),
        Cmd.setPercentDisk B (bytesToGB uB / bytesToGB tB)]) := by
    simp [tickDiskStep, huB, reconcileOne, hA, hB, hAB]
  have h3 : tickDiskStep env.usage
      ([{ dA with Used := bytesToGB uA, Total := bytesToGB tA },
        { dB with Used := bytesToGB uB, Total := bytesToGB tB }],
       [Cmd.setPercentDisk A (bytesToGB uA / bytesToGB tA),
        Cmd.setPercentDisk B (bytesToGB uB / bytesToGB tB)]) C =
      ([{ dA with Used := bytesToGB uA, Total := bytesToGB tA },
        { dB with Used := bytesToGB uB, Total := bytesToGB tB },
        { Mountpoint := C, Used := bytesToGB uC, Total := bytesToGB tC,
          Progress := progressNew }],
       [Cmd.setPercentDisk A (bytesToGB uA / bytesToGB tA),
        Cmd.setPercentDisk B (bytesToGB uB / bytesToGB tB),
        Cmd.initDisk C, Cmd.setPercentDisk C (bytesToGB uC / bytesToGB tC)]) := by
    simp [tickDiskStep, huC, reconcileOne, hA, hB, Ne.symm hCA, Ne.symm hCB]
  have hfold : ([A, B, C] : List String).foldl (tickDiskStep env.usage) ([dA, dB], []) =
      ([{ dA with Used := bytesToGB uA, Total := bytesToGB tA },
        { dB with Used := bytesToGB uB, Total := bytesToGB tB },
        { Mountpoint := C, Used := bytesToGB uC, Total := bytesToGB tC,
          Progress := progressNew }],
       [Cmd.setPercentDisk A (bytesToGB uA / bytesToGB tA),
        Cmd.setPercentDisk B (bytesToGB uB / bytesToGB tB),
        Cmd.initDisk C, Cmd.setPercentDisk C (bytesToGB uC / bytesToGB tC)]) := by
    rw [List.foldl_cons, h1, List.foldl_cons, h2, List.foldl_cons, h3, List.foldl_nil]
  rw [show m.disks = [dA, dB] from hdisks, hfold]
  simp [diskView, diskMetrics, hA, hB]

/-- A tick for the C1 witness: partitions `[/alpha, /beta, /gamma]`
with all usage queries succeeding. -/
def wEnvABC : TickEnv :=
  { mem := some (2147483648, 4294967296), sys := some "host",
    parts := Except.ok ["/alpha", "/beta", "/gamma"],
    usage := fun p =>
      if p = "/alpha" then some (1073741824, 2147483648)
      else if p = "/beta" then some (2147483648, 4294967296)
      else if p = "/gamma" then some (3221225472, 4294967296)
      else none }

/-- C1 witness: the theorem applied at a concrete two-disk state and a
concrete three-partition tick. -/
theorem update_tick_append_growth_witness :
    diskView (wModelAB.update (Msg.tick wEnvABC)).1 =
      [("/alpha", 1, 2), ("/beta", 2, 4), ("/gamma", 3, 4)] := by
  have h := update_tick_append_growth wModelAB wEnvABC "/alpha" "/beta" "/gamma"
    wDiskA wDiskB 2147483648 4294967296 1073741824 2147483648 2147483648
    4294967296 3221225472 4294967296 "host" rfl rfl rfl (by decide) (by decide)
    (by decide) rfl rfl rfl rfl rfl rfl
  rw [h]
  norm_num [bytesToGB]

/-- A tick for the C5 witness: partition `/alpha` succeeds, partition
`/nope` fails its usage query. -/
def wEnvXY : TickEnv :=
  { mem := some (2147483648, 4294967296), sys := some "host",
    parts := Except.ok ["/alpha", "/nope"],
    usage := fun p => if p = "/alpha" then some (1073741824, 2147483648) else none }

/-- C5: on a tick whose partition query returns `X` then `Y` (then
possibly more), where `X`'s usage query succeeds and `Y`'s fails, the
loop is not terminated, `X`'s entry is updated or appended with the
queried values, any pre-existing entry whose mountpoint is `Y` is left
entirely untouched, and the result is exactly what the same tick
without `Y` produces (the failed partition is skipped, the rest still
processed). -/
theorem update_tick_partial_failure (m : Model) (env : TickEnv) (X Y : String)
    (u t mu mt : Nat) (s : String) (rest : List String)
    (hp : env.parts = Except.ok (X :: Y :: rest))
    (hX : env.usage X = some (u, t)) (hY : env.usage Y = none)
    (hm : env.mem = some (mu, mt)) (hs : env.sys = some s) :
    Cmd.quit ∉ (m.update (Msg.tick env)).2 ∧
    firstUT X (m.update (Msg.tick env)).1.disks =
      some (bytesToGB u, bytesToGB t) ∧
    (∀ i (h : i < m.disks.length)
        (h₁ : i < (m.update (Msg.tick env)).1.disks.length),
      m.disks[i].Mountpoint = Y →
        (m.update (Msg.tick env)).1.disks[i] = m.disks[i]) ∧
    m.update (Msg.tick env) =
      m.update (Msg.tick { env with parts := Except.ok (X :: rest) }) := by
  rw [update_tick_ok m env mu mt s (X :: Y :: rest) hm hs hp]
  refine ⟨?_, ?_, ?_, ?_⟩
  · intro hquit
    rcases List.mem_append.mp hquit with hin | hin
    · exact tickFold_no_quit env.usage (X :: Y :: rest) (m.disks, [])
        (List.not_mem_nil _) hin
    · simp at hin
  · exact tickFold_firstUT_mem env.usage (X :: Y :: rest) X u t
      (List.mem_cons_self _ _) hX m.disks []
  · intro i h h₁ hmp
    obtain ⟨hlen, hget⟩ := tickFold_preserve env.usage (X :: Y :: rest) m.disks []
    refine (hget i h h₁).2 fun hmem => ?_
    rw [List.mem_filter, hmp, hY] at hmem
    exact absurd hmem.2 (by simp)
  · rw [update_tick_ok m { env with parts := Except.ok (X :: rest) } mu mt s
      (X :: rest) hm hs rfl]
    have hfold : ((X :: Y :: rest).foldl (tickDiskStep env.usage) (m.disks, [])) =
        ((X :: rest).foldl (tickDiskStep env.usage) (m.disks, [])) := by
      have hYstep : tickDiskStep env.usage
          (tickDiskStep env.usage (m.disks, []) X) Y =
          tickDiskStep env.usage (m.disks, []) X := by
        simp [tickDiskStep, hY]
      rw [List.foldl_cons, List.foldl_cons, hYstep, ← List.foldl_cons]
    rw [hfold]

/-- C5 witness: the theorem applied at a concrete two-disk state and a
concrete tick with one succeeding and one failing partition. -/
theorem update_tick_partial_failure_witness :
    Cmd.quit ∉ (wModelAB.update (Msg.tick wEnvXY)).2 ∧
    firstUT "/alpha" (wModelAB.update (Msg.tick wEnvXY)).1.disks =
      some (bytesToGB 1073741824, bytesToGB 2147483648) := by
  have h := update_tick_partial_failure wModelAB wEnvXY "/alpha" "/nope"
    1073741824 2147483648 2147483648 4294967296 "host" [] rfl rfl rfl rfl rfl
  exact ⟨h.1, h.2.1⟩

end Shoku
